import Mathlib

/-!
Shallow embedding of `src/lib/ReportHistoryStore.jsx`.

The store keeps, per report id, a newest-first list of history items, and
reconciles it with an external source (`API.Report_GetHistory`).  Deferred
(simply-deferred) plumbing is modelled by an explicit `Outcome`: a public
call either resolves with a value, is rejected, or is left pending (the code
registers only `done` callbacks, so a failing API call leaves the outer
deferred pending forever).  Every operation also returns the resulting cache
and the list of API calls it issued, so that fetch-count and offset claims
can be stated.
-/

namespace RHS

/-- One report history entry: the two fields the store inspects
(`sequenceNumber`, `actionName`) plus an opaque payload standing for all the
other fields of the record. -/
structure HistoryItem where
  sequenceNumber : Nat
  actionName : String
  payload : Nat := 0
deriving DecidableEq, Repr

/-- `HIDDEN_ACTIONS` from the source: actions never shown, but kept in the
cache. -/
def HIDDEN_ACTIONS : List String :=
  ["BILLABLEUPDATETRANSACTION",
   "BILLABLEDELEGATE",
   "QUEUEDFOREXPORT",
   "REIMBURSEMENTACHBOUNCEFASTDEBIT",
   "REIMBURSEMENTRETRYDEBIT",
   "DIGITALSIGNATURE"]

/-- One character list begins with another. -/
def charsStartWith : List Char → List Char → Bool
  | _, [] => true
  | [], _ :: _ => false
  | c :: cs, p :: ps => c == p && charsStartWith cs ps

/-- Modelled from the spec: `Str.startsWith` comes from the repository's
`str` module, which is not under `src/`; the spec describes it as testing
whether "its category label begins with a configured reserved prefix" —
a string prefix test, here computed on the character lists. -/
def strStartsWith (s pre : String) : Bool := charsStartWith s.data pre.data

/-- `this.filterHiddenActions`: drops items whose `actionName` is in
`HIDDEN_ACTIONS` or begins with `CC`. -/
def filterHiddenActions (historyItems : List HistoryItem) : List HistoryItem :=
  historyItems.filter
    (fun historyItem =>
      !(HIDDEN_ACTIONS.contains historyItem.actionName) &&
      !(strStartsWith historyItem.actionName "CC"))

/-- `this.cache`: a map of report ids to history item arrays, as an
association list. -/
abbrev Cache := List (Nat × List HistoryItem)

/-- Reading `this.cache[reportID]`; `none` models `undefined`. -/
def Cache.read (c : Cache) (id : Nat) : Option (List HistoryItem) :=
  match c with
  | [] => none
  | (k, v) :: rest => if k = id then some v else Cache.read rest id

/-- Assigning `this.cache[reportID] = h`. -/
def Cache.write (c : Cache) (id : Nat) (h : List HistoryItem) : Cache :=
  match c with
  | [] => [(id, h)]
  | (k, v) :: rest =>
      if k = id then (k, h) :: rest else (k, v) :: Cache.write rest id h

/-- `this.cache[reportID] || []` as the list a lookup yields. -/
def slotOf (c : Cache) (id : Nat) : List HistoryItem :=
  (Cache.read c id).getD []

/-- `_.findWhere(list, {sequenceNumber: target})`.  The target is an `Int`
because the source also probes `sequenceNumber - 1`, which in JS can be
`-1`. -/
def findWhereSeq (l : List HistoryItem) (target : Int) : Option HistoryItem :=
  l.find? (fun h => (h.sequenceNumber : Int) == target)

/-- `_.findWhere(prev, ...)` where `prev` may be `undefined` (`none`):
underscore finds nothing in `undefined`. -/
def findWhereSeqOpt (l : Option (List HistoryItem)) (target : Int) :
    Option HistoryItem :=
  match l with
  | none => none
  | some xs => findWhereSeq xs target

/-- The JS `TypeError` raised by `prev.unshift(curr)` when `prev` is
`undefined`. -/
def unshiftUndefinedError : String := "TypeError: unshift of undefined"

/-- The `_.reduce` loop inside `mergeItems`: walk the (already reversed)
delta, and unshift every item whose sequence number is not present yet onto
the accumulator.  The accumulator starts as `this.cache[reportID]`, which may
be `undefined` (`none`); unshifting onto `undefined` throws. -/
def mergeReduce :
    Option (List HistoryItem) → List HistoryItem →
    Except String (Option (List HistoryItem))
  | prev, [] => .ok prev
  | prev, curr :: rest =>
    match findWhereSeqOpt prev (curr.sequenceNumber : Int) with
    | some _ => mergeReduce prev rest
    | none =>
      match prev with
      | none => .error unshiftUndefinedError
      | some xs => mergeReduce (some (curr :: xs)) rest

/-- `mergeItems(reportID, newHistory)`.  The first component is the store
outcome (new cache, or the thrown `TypeError`); the second component records
the caller's `newHistory` array as observed after the call —
`newHistory.reverse()` reverses it in place before the reduce runs. -/
def mergeItemsFull (c : Cache) (id : Nat) (newHistory : List HistoryItem) :
    Except String Cache × List HistoryItem :=
  if newHistory.length = 0 then (.ok c, newHistory)
  else
    match mergeReduce (Cache.read c id) newHistory.reverse with
    | .error e => (.error e, newHistory.reverse)
    | .ok none => (.ok c, newHistory.reverse)
    | .ok (some h) => (.ok (Cache.write c id h), newHistory.reverse)

/-- `mergeItems` as a cache transformer (the `.ok none` branch of
`mergeItemsFull` is unreachable: a nonempty reduce starting from `none`
errors at its first step). -/
def mergeItemsStore (c : Cache) (id : Nat) (newHistory : List HistoryItem) :
    Except String Cache :=
  (mergeItemsFull c id newHistory).1

/-- Result of one `API.Report_GetHistory` call: the API deferred either
resolves with a history array or fails. -/
inductive ApiResult where
  | success (history : List HistoryItem)
  | failure
deriving DecidableEq, Repr

/-- The injected API: report id and optional `offset` to a result. -/
abbrev Api := Nat → Option Nat → ApiResult

/-- A record of one issued API call: report id and the offset passed
(`none` when the `offset` key is omitted). -/
abbrev FetchCall := Nat × Option Nat

/-- The state of a simply-deferred promise as a caller observes it.  The
store never calls `reject`, and registers only `done` callbacks, so an API
failure leaves the outer promise `pending`. -/
inductive Outcome where
  | resolved (value : List HistoryItem)
  | rejected
  | pending
deriving DecidableEq, Repr

/-- Outcome of one store operation: promise state, resulting cache, and the
API calls issued, in order. -/
abbrev OpResult := Outcome × Cache × List FetchCall

instance : DecidableEq OpResult := fun a b => instDecidableEqProd a b

/-- `fetchAll(reportID)`: fetch the whole history (no `offset` key) and, on
success, install it in the cache; the resolved value is the fetched array. -/
def fetchAll (api : Api) (c : Cache) (id : Nat) : OpResult :=
  match api id none with
  | .success reportHistory =>
      (.resolved reportHistory, Cache.write c id reportHistory, [(id, none)])
  | .failure => (.pending, c, [(id, none)])

/-- The `sequenceNumber` of `_.first(cachedHistory)`, defaulting to `0` for
an empty list — the source reads the first item (or an empty object) and
applies `|| 0`, and `0 || 0` is `0`, so a newest item with sequence number
`0` also yields offset `0`. -/
def headSeq (l : List HistoryItem) : Nat :=
  match l.head? with
  | some firstHistoryItem => firstHistoryItem.sequenceNumber
  | none => 0

/-- The private `get(reportID)`.  Empty (or missing) cache: `fetchAll`.
Otherwise: fetch with `offset` = newest cached sequence number
(`firstHistoryItem.sequenceNumber || 0`), merge, and resolve with the merged
cache entry.  An exception escaping `mergeItems` is an `.error`. -/
def storeGet (api : Api) (c : Cache) (id : Nat) : Except String OpResult :=
  let cachedHistory := (Cache.read c id).getD []
  if cachedHistory.isEmpty then .ok (fetchAll api c id)
  else
    let offset : Nat := headSeq cachedHistory
    match api id (some offset) with
    | .success recentHistory =>
      match mergeItemsStore c id recentHistory with
      | .ok c2 => .ok (.resolved ((Cache.read c2 id).getD []), c2, [(id, some offset)])
      | .error e => .error e
    | .failure => .ok (.pending, c, [(id, some offset)])

/-- `getFromCacheFirst(reportID)`: resolve with the cached history when one
is present and nonempty, otherwise `fetchAll`. -/
def getFromCacheFirst (api : Api) (c : Cache) (id : Nat) : OpResult :=
  let cachedHistory := (Cache.read c id).getD []
  if cachedHistory.isEmpty then fetchAll api c id
  else (.resolved cachedHistory, c, [])

/-- The public `get(reportID)`: the private `get`, with the resolved value
passed through `filterHiddenActions`.  A pending inner deferred leaves the
outer promise pending. -/
def publicGet (api : Api) (c : Cache) (id : Nat) : Except String OpResult :=
  match storeGet api c id with
  | .ok (.resolved reportHistory, c2, log) =>
      .ok (.resolved (filterHiddenActions reportHistory), c2, log)
  | .ok (.rejected, c2, log) => .ok (.pending, c2, log)
  | .ok (.pending, c2, log) => .ok (.pending, c2, log)
  | .error e => .error e

/-- The public `set(reportID, reportAction)`.  On the history resolved by
`getFromCacheFirst`: if the sequence number is already present, resolve with
the filtered cached history; else if the immediate predecessor
(`sequenceNumber - 1`) is present, unshift the action onto
`this.cache[reportID]` and resolve with the filtered result; else fall back
to the private `get`. -/
def publicSet (api : Api) (c : Cache) (id : Nat) (reportAction : HistoryItem) :
    Except String OpResult :=
  match getFromCacheFirst api c id with
  | (.resolved cachedHistory, c1, log1) =>
    let sequenceNumber : Int := (reportAction.sequenceNumber : Int)
    if (findWhereSeq cachedHistory sequenceNumber).isSome then
      .ok (.resolved (filterHiddenActions cachedHistory), c1, log1)
    else if (findWhereSeq cachedHistory (sequenceNumber - 1)).isSome then
      let updated := reportAction :: ((Cache.read c1 id).getD [])
      .ok (.resolved (filterHiddenActions updated), Cache.write c1 id updated, log1)
    else
      match storeGet api c1 id with
      | .ok (.resolved reportHistory, c2, log2) =>
          .ok (.resolved (filterHiddenActions reportHistory), c2, log1 ++ log2)
      | .ok (.rejected, c2, log2) => .ok (.pending, c2, log1 ++ log2)
      | .ok (.pending, c2, log2) => .ok (.pending, c2, log1 ++ log2)
      | .error e => .error e
  | (.rejected, c1, log1) => .ok (.pending, c1, log1)
  | (.pending, c1, log1) => .ok (.pending, c1, log1)

/-- Sequence numbers of a history list, in order. -/
def seqsOf (l : List HistoryItem) : List Nat :=
  l.map (fun h => h.sequenceNumber)

/-- `a` is strictly newer than `b`. -/
def seqGT (a b : HistoryItem) : Prop := b.sequenceNumber < a.sequenceNumber

instance : DecidableRel seqGT :=
  fun a b => Nat.decLt b.sequenceNumber a.sequenceNumber

instance : IsTrans HistoryItem seqGT :=
  ⟨fun _ _ _ h1 h2 => Nat.lt_trans h2 h1⟩

/-- Newest-first: strictly decreasing sequence numbers between neighbours. -/
def sortedDesc (l : List HistoryItem) : Prop :=
  List.Chain' seqGT l

instance instDecSortedDesc : (l : List HistoryItem) → Decidable (sortedDesc l)
  | [] => isTrue List.chain'_nil
  | [a] => isTrue (List.chain'_singleton a)
  | a :: b :: t =>
    match Nat.decLt b.sequenceNumber a.sequenceNumber,
        instDecSortedDesc (b :: t) with
    | isTrue h1, isTrue h2 => isTrue (List.chain'_cons.mpr ⟨h1, h2⟩)
    | isFalse h1, _ => isFalse (fun hc => h1 (List.chain'_cons.mp hc).1)
    | _, isFalse h2 => isFalse (fun hc => h2 (List.chain'_cons.mp hc).2)

/-- The spec's cache invariant: every slot is newest-first (strictly
descending, hence duplicate-free). -/
def CacheInv (c : Cache) : Prop := ∀ id, sortedDesc (slotOf c id)

/-- The source contract used by the invariant claims: every successful
response is newest-first, and a response to an offset request contains only
entries strictly newer than the offset. -/
def HonestApi (api : Api) : Prop :=
  ∀ id off h, api id off = .success h →
    sortedDesc h ∧ ∀ x ∈ h, ∀ k, off = some k → k < x.sequenceNumber

/-- Convenience item builder used by concrete test inputs. -/
def mkItem (n : Nat) : HistoryItem := { sequenceNumber := n, actionName := "COMMENT" }

instance {ε α : Type} [DecidableEq ε] [DecidableEq α] : DecidableEq (Except ε α) :=
  fun a b =>
    match a, b with
    | .ok x, .ok y => decidable_of_iff (x = y) (by simp)
    | .error x, .error y => decidable_of_iff (x = y) (by simp)
    | .ok _, .error _ => isFalse (by simp)
    | .error _, .ok _ => isFalse (by simp)

/-- Item with a hidden reserved-prefix action name, used by concrete
inputs. -/
def ccItem (n : Nat) : HistoryItem := { sequenceNumber := n, actionName := "CCFOO" }

/-- Item with an action name from the hidden-category set, used by concrete
inputs. -/
def billableItem (n : Nat) : HistoryItem :=
  { sequenceNumber := n, actionName := "BILLABLEDELEGATE" }

/-- Always-successful API whose every response is the empty history. -/
def emptyApi : Api := fun _ _ => .success []

/-- API whose every call fails. -/
def failApi : Api := fun _ _ => .failure

/-- API returning the fixed two-entry history `[2, 1]` for every request. -/
def oneReportApi : Api := fun _ _ => .success [mkItem 2, mkItem 1]

/-- The cache an operation result carries (falling back to a supplied cache
for an escaped exception). -/
def cacheOf (r : Except String OpResult) (c : Cache) : Cache :=
  match r with
  | .ok (_, c2, _) => c2
  | .error _ => c

/-- An exact source over the authoritative log `[7, 5]` (the log itself has
a gap at 6): a full fetch returns the whole log, an offset fetch returns
exactly the log entries strictly newer than the offset. -/
def gapLogApi : Api := fun _ off =>
  match off with
  | none => .success [mkItem 7, mkItem 5]
  | some k =>
      .success (List.filter (fun x => decide (k < x.sequenceNumber))
        [mkItem 7, mkItem 5])

/-- The API calls an operation issued (none for an escaped exception). -/
def callLog : Except String OpResult → List FetchCall
  | .ok (_, _, log) => log
  | .error _ => []

/-- Boolean check that a list shows no hidden action: no item's `actionName`
belongs to `HIDDEN_ACTIONS` or begins with `CC`. -/
def noHidden (l : List HistoryItem) : Bool :=
  l.all (fun x => !(HIDDEN_ACTIONS.contains x.actionName) &&
    !(strStartsWith x.actionName "CC"))

/-- The guard the `set` fast path needs: whenever the resolved history
contains the entry's predecessor but not the entry, every cached entry is
strictly older than the entry being set. -/
def SetEntryGuard (api : Api) (c : Cache) (id : Nat) (e : HistoryItem) : Prop :=
  ∀ E c1 log1, getFromCacheFirst api c id = (.resolved E, c1, log1) →
    (findWhereSeq E ((e.sequenceNumber : Int) - 1)).isSome →
    findWhereSeq E (e.sequenceNumber : Int) = none →
    ∀ x ∈ E, x.sequenceNumber < e.sequenceNumber

theorem Cache.read_write_self (c : Cache) (id : Nat) (h : List HistoryItem) :
    Cache.read (Cache.write c id h) id = some h := by
  induction c with
  | nil => simp [Cache.write, Cache.read]
  | cons kv rest ih =>
    obtain ⟨k, v⟩ := kv
    by_cases hk : k = id
    · simp [Cache.write, Cache.read, hk]
    · simp [Cache.write, Cache.read, hk, ih]

theorem Cache.read_write_other (c : Cache) (id j : Nat) (h : List HistoryItem)
    (hne : id ≠ j) :
    Cache.read (Cache.write c id h) j = Cache.read c j := by
  induction c with
  | nil => simp [Cache.write, Cache.read, hne]
  | cons kv rest ih =>
    obtain ⟨k, v⟩ := kv
    by_cases hk : k = id
    · subst hk
      simp [Cache.write, Cache.read, hne]
    · simp [Cache.write, Cache.read, hk, ih]

theorem Cache.write_eq_self (c : Cache) (id : Nat) (h : List HistoryItem)
    (hr : Cache.read c id = some h) : Cache.write c id h = c := by
  induction c with
  | nil => simp [Cache.read] at hr
  | cons kv rest ih =>
    obtain ⟨k, v⟩ := kv
    by_cases hk : k = id
    · subst hk
      simp [Cache.read] at hr
      simp [Cache.write, hr]
    · simp [Cache.read, hk] at hr
      simp [Cache.write, hk, ih hr]

theorem slotOf_write_self (c : Cache) (id : Nat) (h : List HistoryItem) :
    slotOf (Cache.write c id h) id = h := by
  simp [slotOf, Cache.read_write_self]

theorem slotOf_write_other (c : Cache) (id j : Nat) (h : List HistoryItem)
    (hne : id ≠ j) : slotOf (Cache.write c id h) j = slotOf c j := by
  simp [slotOf, Cache.read_write_other c id j h hne]

theorem findWhereSeq_eq_none {l : List HistoryItem} {t : Int} :
    findWhereSeq l t = none ↔ ∀ x ∈ l, (x.sequenceNumber : Int) ≠ t := by
  simp [findWhereSeq, List.find?_eq_none]

theorem findWhereSeq_isSome_iff {l : List HistoryItem} {t : Int} :
    (findWhereSeq l t).isSome ↔ ∃ x ∈ l, (x.sequenceNumber : Int) = t := by
  rw [Option.isSome_iff_exists]
  constructor
  · rintro ⟨x, hx⟩
    refine ⟨x, List.mem_of_find?_eq_some hx, ?_⟩
    have := List.find?_some hx
    simpa using this
  · rintro ⟨x, hmem, hx⟩
    rcases hfind : findWhereSeq l t with _ | y
    · exact absurd hx (findWhereSeq_eq_none.mp hfind x hmem)
    · exact ⟨y, rfl⟩

theorem findWhereSeq_mem_nat {l : List HistoryItem} {n : Nat} :
    (findWhereSeq l (n : Int)).isSome ↔ n ∈ seqsOf l := by
  rw [findWhereSeq_isSome_iff]
  constructor
  · rintro ⟨x, hmem, hx⟩
    have : x.sequenceNumber = n := by exact_mod_cast hx
    exact this ▸ List.mem_map_of_mem _ hmem
  · intro hmem
    rcases List.mem_map.mp hmem with ⟨x, hx, hseq⟩
    exact ⟨x, hx, by exact_mod_cast hseq⟩

/-- A reduce over a nonempty list whose accumulator starts `undefined` throws
at its first step. -/
theorem mergeReduce_none_cons (x : HistoryItem) (L : List HistoryItem) :
    mergeReduce none (x :: L) = .error unshiftUndefinedError := by
  simp [mergeReduce, findWhereSeqOpt]

/-- A reduce starting from a defined accumulator always succeeds with a
defined result that keeps the initial accumulator as a suffix. -/
theorem mergeReduce_some (L : List HistoryItem) :
    ∀ E : List HistoryItem,
      ∃ h, mergeReduce (some E) L = .ok (some h) ∧ E <:+ h := by
  induction L with
  | nil => exact fun E => ⟨E, rfl, List.suffix_refl E⟩
  | cons x R ih =>
    intro E
    rcases hf : findWhereSeq E (x.sequenceNumber : Int) with _ | y
    · rcases ih (x :: E) with ⟨h, hred, hsuf⟩
      exact ⟨h, by simp [mergeReduce, findWhereSeqOpt, hf, hred],
        (List.suffix_cons x E).trans hsuf⟩
    · rcases ih E with ⟨h, hred, hsuf⟩
      exact ⟨h, by simp [mergeReduce, findWhereSeqOpt, hf, hred], hsuf⟩

/-- When the reversed delta has pairwise-distinct sequence numbers, none of
which occurs in the accumulator, each step unshifts, so the reduce prepends
the delta in delivery order. -/
theorem mergeReduce_disjoint (L : List HistoryItem) :
    ∀ E : List HistoryItem, (seqsOf L).Nodup →
      (∀ x ∈ L, x.sequenceNumber ∉ seqsOf E) →
      mergeReduce (some E) L = .ok (some (L.reverse ++ E)) := by
  induction L with
  | nil => intro E _ _; rfl
  | cons x R ih =>
    intro E hnd hdisj
    have hcons : seqsOf (x :: R) = x.sequenceNumber :: seqsOf R := by
      simp [seqsOf]
    rw [hcons, List.nodup_cons] at hnd
    have hxE : x.sequenceNumber ∉ seqsOf E := hdisj x (by simp)
    have hfind : findWhereSeq E (x.sequenceNumber : Int) = none := by
      rw [findWhereSeq_eq_none]
      intro y hy hcontra
      have hyx : y.sequenceNumber = x.sequenceNumber := by exact_mod_cast hcontra
      exact hxE (hyx ▸ List.mem_map_of_mem _ hy)
    have hdisj' : ∀ y ∈ R, y.sequenceNumber ∉ seqsOf (x :: E) := by
      intro y hy
      have hys : seqsOf (x :: E) = x.sequenceNumber :: seqsOf E := by simp [seqsOf]
      rw [hys, List.mem_cons]
      rintro (heq | hmem)
      · exact hnd.1 (heq ▸ List.mem_map_of_mem _ hy)
      · exact hdisj y (by simp [hy]) hmem
    have hstep := ih (x :: E) hnd.2 hdisj'
    simp only [mergeReduce, findWhereSeqOpt, hfind]
    rw [hstep]
    simp

theorem sortedDesc_iff_pairwise {l : List HistoryItem} :
    sortedDesc l ↔ List.Pairwise seqGT l :=
  List.chain'_iff_pairwise

theorem sortedDesc_nil : sortedDesc [] := List.chain'_nil

theorem sortedDesc_cons_self {a : HistoryItem} {t : List HistoryItem}
    (h : sortedDesc (a :: t)) : sortedDesc t := by
  rw [sortedDesc_iff_pairwise] at h ⊢
  exact h.of_cons

theorem sortedDesc_head_max {a : HistoryItem} {t : List HistoryItem}
    (h : sortedDesc (a :: t)) :
    ∀ x ∈ t, x.sequenceNumber < a.sequenceNumber := by
  intro x hx
  exact List.rel_of_pairwise_cons (sortedDesc_iff_pairwise.mp h) hx

theorem sortedDesc_cons_of {a : HistoryItem} {t : List HistoryItem}
    (ht : sortedDesc t)
    (hall : ∀ x ∈ t, x.sequenceNumber < a.sequenceNumber) :
    sortedDesc (a :: t) := by
  rw [sortedDesc_iff_pairwise] at ht ⊢
  exact List.Pairwise.cons hall ht

theorem sortedDesc_append {D E : List HistoryItem}
    (hD : sortedDesc D) (hE : sortedDesc E)
    (hlt : ∀ x ∈ D, ∀ y ∈ E, y.sequenceNumber < x.sequenceNumber) :
    sortedDesc (D ++ E) := by
  rw [sortedDesc_iff_pairwise] at hD hE ⊢
  exact List.pairwise_append.mpr ⟨hD, hE, hlt⟩

theorem sortedDesc_nodup_seqs {l : List HistoryItem} (h : sortedDesc l) :
    (seqsOf l).Nodup := by
  rw [sortedDesc_iff_pairwise] at h
  have : List.Pairwise (fun a b : HistoryItem =>
      a.sequenceNumber ≠ b.sequenceNumber) l :=
    h.imp (fun hab => Nat.ne_of_gt hab)
  exact List.pairwise_map.mpr this

/-- Everything in a sorted nonempty list is bounded by the head's sequence
number, which is `headSeq`. -/
theorem sortedDesc_le_headSeq {l : List HistoryItem} (hs : sortedDesc l) :
    ∀ x ∈ l, x.sequenceNumber ≤ headSeq l := by
  intro x hx
  cases l with
  | nil => cases hx
  | cons a t =>
    rcases List.mem_cons.mp hx with rfl | hxt
    · simp [headSeq]
    · exact le_of_lt (by simpa [headSeq] using sortedDesc_head_max hs x hxt)

/-- `mergeItems` under the conditions the private `get` establishes: the
cache entry exists, the delta has pairwise-distinct sequence numbers, none
already cached.  The delta ends up prepended in delivery order. -/
theorem mergeItemsStore_eq {c : Cache} {id : Nat} {E D : List HistoryItem}
    (hread : Cache.read c id = some E)
    (hnd : (seqsOf D).Nodup)
    (hdisj : ∀ x ∈ D, x.sequenceNumber ∉ seqsOf E) :
    mergeItemsStore c id D = .ok (Cache.write c id (D ++ E)) := by
  cases D with
  | nil =>
    simp [mergeItemsStore, mergeItemsFull, Cache.write_eq_self c id E hread]
  | cons d R =>
    have hnd' : (seqsOf (d :: R).reverse).Nodup := by
      have : seqsOf (d :: R).reverse = (seqsOf (d :: R)).reverse := by
        simp [seqsOf]
      rw [this, List.nodup_reverse]
      exact hnd
    have hdisj' : ∀ x ∈ (d :: R).reverse, x.sequenceNumber ∉ seqsOf E :=
      fun x hx => hdisj x (List.mem_reverse.mp hx)
    have hred := mergeReduce_disjoint (d :: R).reverse E hnd' hdisj'
    rw [List.reverse_reverse] at hred
    simp only [mergeItemsStore, mergeItemsFull, List.length_cons, hread]
    rw [if_neg (by simp)]
    rw [hred]

/-- Whenever the cache entry exists, `mergeItems` cannot throw. -/
theorem mergeItemsStore_ok_of_read_some {c : Cache} {id : Nat}
    {E : List HistoryItem} (D : List HistoryItem)
    (hread : Cache.read c id = some E) :
    ∃ c2, mergeItemsStore c id D = .ok c2 ∧
      ∃ h, Cache.read c2 id = some h ∧ E <:+ h := by
  cases D with
  | nil =>
    exact ⟨c, by simp [mergeItemsStore, mergeItemsFull], E, hread,
      List.suffix_refl E⟩
  | cons d R =>
    rcases mergeReduce_some (d :: R).reverse E with ⟨h, hred, hsuf⟩
    refine ⟨Cache.write c id h, ?_, h, Cache.read_write_self c id h, hsuf⟩
    simp only [mergeItemsStore, mergeItemsFull, List.length_cons, hread]
    rw [if_neg (by simp)]
    rw [hred]

/-- `mergeItems` on a nonempty delta with no cache entry throws. -/
theorem mergeItemsStore_cons_none {c : Cache} {id : Nat} {d : HistoryItem}
    {R : List HistoryItem} (hread : Cache.read c id = none) :
    mergeItemsStore c id (d :: R) = .error unshiftUndefinedError := by
  rcases hrev : (d :: R).reverse with _ | ⟨x, L⟩
  · exact absurd hrev (by simp)
  · simp only [mergeItemsStore, mergeItemsFull, List.length_cons]
    rw [if_neg (by simp), hread, hrev, mergeReduce_none_cons]

/-- `mergeItems` on a nonempty delta with an existing cache entry commits the
result of the reduce. -/
theorem mergeItemsStore_cons_some {c : Cache} {id : Nat} {d : HistoryItem}
    {R : List HistoryItem} {E h : List HistoryItem}
    (hread : Cache.read c id = some E)
    (hred : mergeReduce (some E) (d :: R).reverse = .ok (some h)) :
    mergeItemsStore c id (d :: R) = .ok (Cache.write c id h) := by
  simp only [mergeItemsStore, mergeItemsFull, List.length_cons]
  rw [if_neg (by simp), hread, hred]

/-- A successful `mergeItems` only ever prepends to the touched slot and
leaves every other slot alone. -/
theorem mergeItemsStore_suffix {c : Cache} {id : Nat} {D : List HistoryItem}
    {c2 : Cache} (hok : mergeItemsStore c id D = .ok c2) :
    ∀ j, slotOf c j <:+ slotOf c2 j := by
  intro j
  cases D with
  | nil =>
    simp only [mergeItemsStore, mergeItemsFull] at hok
    rw [if_pos (by simp)] at hok
    cases hok
    exact List.suffix_refl _
  | cons d R =>
    rcases hread : Cache.read c id with _ | E
    · rw [mergeItemsStore_cons_none hread] at hok
      simp at hok
    · rcases mergeReduce_some (d :: R).reverse E with ⟨h, hred, hsuf⟩
      rw [mergeItemsStore_cons_some hread hred] at hok
      cases hok
      by_cases hj : id = j
      · subst hj
        rw [slotOf_write_self]
        simpa [slotOf, hread] using hsuf
      · rw [slotOf_write_other c id j h hj]

/-- Exhaustive description of the private `get`: bootstrap fetch (success or
failure) on an empty slot, incremental fetch (success or failure) otherwise.
The incremental offset is always the newest cached sequence number. -/
theorem storeGet_cases (api : Api) (c : Cache) (id : Nat) :
    (∃ h, slotOf c id = [] ∧ api id none = .success h ∧
        storeGet api c id = .ok (.resolved h, Cache.write c id h, [(id, none)])) ∨
    (slotOf c id = [] ∧ api id none = .failure ∧
        storeGet api c id = .ok (.pending, c, [(id, none)])) ∨
    (∃ E D c2, Cache.read c id = some E ∧ E ≠ [] ∧
        api id (some (headSeq E)) = .success D ∧
        mergeItemsStore c id D = .ok c2 ∧
        storeGet api c id =
          .ok (.resolved (slotOf c2 id), c2, [(id, some (headSeq E))])) ∨
    (∃ E, Cache.read c id = some E ∧ E ≠ [] ∧
        api id (some (headSeq E)) = .failure ∧
        storeGet api c id = .ok (.pending, c, [(id, some (headSeq E))])) := by
  by_cases hemp : ((Cache.read c id).getD []).isEmpty = true
  · rcases hapi : api id none with h | _
    · exact .inl ⟨h, by simpa [slotOf] using hemp, rfl,
        by simp [storeGet, hemp, fetchAll, hapi]⟩
    · exact .inr (.inl ⟨by simpa [slotOf] using hemp, rfl,
        by simp [storeGet, hemp, fetchAll, hapi]⟩)
  · have hE : ∃ E, Cache.read c id = some E ∧ E ≠ [] := by
      rcases hr : Cache.read c id with _ | E
      · rw [hr] at hemp; simp at hemp
      · rw [hr] at hemp
        exact ⟨E, rfl, by simpa [List.isEmpty_iff] using hemp⟩
    rcases hE with ⟨E, hr, hne⟩
    have hgoal : (Cache.read c id).getD [] = E := by rw [hr]; rfl
    rcases hapi : api id (some (headSeq E)) with D | _
    · rcases mergeItemsStore_ok_of_read_some D hr with ⟨c2, hok, _⟩
      refine .inr (.inr (.inl ⟨E, D, c2, hr, hne, hapi, hok, ?_⟩))
      simp only [storeGet, hgoal]
      rw [if_neg (by simp [List.isEmpty_iff, hne])]
      simp [hapi, hok, slotOf]
    · refine .inr (.inr (.inr ⟨E, hr, hne, hapi, ?_⟩))
      simp only [storeGet, hgoal]
      rw [if_neg (by simp [List.isEmpty_iff, hne])]
      simp [hapi]

/-- Exhaustive description of `getFromCacheFirst`. -/
theorem getFromCacheFirst_cases (api : Api) (c : Cache) (id : Nat) :
    (∃ h, slotOf c id = [] ∧ api id none = .success h ∧
        getFromCacheFirst api c id =
          (.resolved h, Cache.write c id h, [(id, none)])) ∨
    (slotOf c id = [] ∧ api id none = .failure ∧
        getFromCacheFirst api c id = (.pending, c, [(id, none)])) ∨
    (∃ E, Cache.read c id = some E ∧ E ≠ [] ∧
        getFromCacheFirst api c id = (.resolved E, c, [])) := by
  by_cases hemp : ((Cache.read c id).getD []).isEmpty = true
  · rcases hapi : api id none with h | _
    · exact .inl ⟨h, by simpa [slotOf] using hemp, rfl,
        by simp [getFromCacheFirst, hemp, fetchAll, hapi]⟩
    · exact .inr (.inl ⟨by simpa [slotOf] using hemp, rfl,
        by simp [getFromCacheFirst, hemp, fetchAll, hapi]⟩)
  · have hE : ∃ E, Cache.read c id = some E ∧ E ≠ [] := by
      rcases hr : Cache.read c id with _ | E
      · rw [hr] at hemp; simp at hemp
      · rw [hr] at hemp
        exact ⟨E, rfl, by simpa [List.isEmpty_iff] using hemp⟩
    rcases hE with ⟨E, hr, hne⟩
    have hgoal : (Cache.read c id).getD [] = E := by rw [hr]; rfl
    refine .inr (.inr ⟨E, hr, hne, ?_⟩)
    simp only [getFromCacheFirst, hgoal]
    rw [if_neg (by simp [List.isEmpty_iff, hne])]

/-- Writing a sorted slot preserves the cache invariant. -/
theorem CacheInv_write {c : Cache} {id : Nat} {h : List HistoryItem}
    (hinv : CacheInv c) (hs : sortedDesc h) : CacheInv (Cache.write c id h) := by
  intro j
  by_cases hj : id = j
  · subst hj; rw [slotOf_write_self]; exact hs
  · rw [slotOf_write_other c id j h hj]; exact hinv j

theorem opResult_inj {r : Except String OpResult} {a out : Outcome}
    {b c2 : Cache} {l log : List FetchCall}
    (h1 : r = .ok (a, b, l)) (h2 : r = .ok (out, c2, log)) :
    a = out ∧ b = c2 ∧ l = log := by
  rw [h1] at h2
  simpa using h2

/-- The public `get` is the private `get` with filtering applied to a
resolved value (and a pending inner deferred propagated). -/
theorem publicGet_to_storeGet {api : Api} {c : Cache} {id : Nat}
    {out : Outcome} {c2 : Cache} {log : List FetchCall}
    (h : publicGet api c id = .ok (out, c2, log)) :
    ∃ out1, storeGet api c id = .ok (out1, c2, log) ∧
      (∀ v, out1 = .resolved v → out = .resolved (filterHiddenActions v)) ∧
      (out1 = .rejected → out = .pending) ∧
      (out1 = .pending → out = .pending) := by
  rcases hs : storeGet api c id with e | r
  · unfold publicGet at h
    rw [hs] at h
    simp at h
  · obtain ⟨out1, c3, log3⟩ := r
    unfold publicGet at h
    rw [hs] at h
    cases out1 with
    | resolved v =>
      simp only [Except.ok.injEq, Prod.mk.injEq] at h
      obtain ⟨rfl, rfl, rfl⟩ := h
      refine ⟨.resolved v, rfl, ?_, ?_, ?_⟩
      · intro v' hv
        cases hv
        rfl
      · intro hv
        cases hv
      · intro hv
        cases hv
    | rejected =>
      simp only [Except.ok.injEq, Prod.mk.injEq] at h
      obtain ⟨rfl, rfl, rfl⟩ := h
      refine ⟨.rejected, rfl, ?_, ?_, ?_⟩
      · intro v' hv
        cases hv
      · intro hv
        rfl
      · intro hv
        cases hv
    | pending =>
      simp only [Except.ok.injEq, Prod.mk.injEq] at h
      obtain ⟨rfl, rfl, rfl⟩ := h
      refine ⟨.pending, rfl, ?_, ?_, ?_⟩
      · intro v' hv
        cases hv
      · intro hv
        cases hv
      · intro hv
        rfl

/-- Unfolding of the public `set` once `getFromCacheFirst` has resolved. -/
theorem publicSet_after_resolved {api : Api} {c c1 : Cache} {id : Nat}
    {e : HistoryItem} {E : List HistoryItem} {log1 : List FetchCall}
    (hg : getFromCacheFirst api c id = (.resolved E, c1, log1)) :
    publicSet api c id e =
      if (findWhereSeq E (e.sequenceNumber : Int)).isSome then
        .ok (.resolved (filterHiddenActions E), c1, log1)
      else if (findWhereSeq E ((e.sequenceNumber : Int) - 1)).isSome then
        .ok (.resolved (filterHiddenActions (e :: ((Cache.read c1 id).getD []))),
             Cache.write c1 id (e :: ((Cache.read c1 id).getD [])), log1)
      else
        match storeGet api c1 id with
        | .ok (.resolved reportHistory, c2, log2) =>
            .ok (.resolved (filterHiddenActions reportHistory), c2, log1 ++ log2)
        | .ok (.rejected, c2, log2) => .ok (.pending, c2, log1 ++ log2)
        | .ok (.pending, c2, log2) => .ok (.pending, c2, log1 ++ log2)
        | .error e2 => .error e2 := by
  unfold publicSet
  rw [hg]

/-- Unfolding of the public `set` once `getFromCacheFirst` is pending. -/
theorem publicSet_after_pending {api : Api} {c c1 : Cache} {id : Nat}
    {e : HistoryItem} {log1 : List FetchCall}
    (hg : getFromCacheFirst api c id = (.pending, c1, log1)) :
    publicSet api c id e = .ok (.pending, c1, log1) := by
  unfold publicSet
  rw [hg]

/-- The private `get` preserves the sortedness invariant against an honest
source: the bootstrap install is sorted, and an incremental merge prepends a
sorted batch of strictly newer entries. -/
theorem storeGet_inv {api : Api} {c : Cache} {id : Nat}
    (hapi : HonestApi api) (hinv : CacheInv c) :
    ∀ out c2 log, storeGet api c id = .ok (out, c2, log) → CacheInv c2 := by
  intro out c2 log hok
  rcases storeGet_cases api c id with
    ⟨h, hslot, hsucc, heq⟩ | ⟨hslot, hfail, heq⟩ |
    ⟨E, D, c3, hr, hne, hsucc, hmerge, heq⟩ | ⟨E, hr, hne, hfail, heq⟩
  · obtain ⟨-, rfl, -⟩ := opResult_inj heq hok
    exact CacheInv_write hinv (hapi id none h hsucc).1
  · obtain ⟨-, rfl, -⟩ := opResult_inj heq hok
    exact hinv
  · obtain ⟨-, rfl, -⟩ := opResult_inj heq hok
    obtain ⟨hsorted, hmem⟩ := hapi id (some (headSeq E)) D hsucc
    have hE : sortedDesc E := by
      have := hinv id
      rwa [slotOf, hr, Option.getD_some] at this
    have hcross : ∀ x ∈ D, ∀ y ∈ E, y.sequenceNumber < x.sequenceNumber := by
      intro x hx y hy
      exact lt_of_le_of_lt (sortedDesc_le_headSeq hE y hy)
        (hmem x hx (headSeq E) rfl)
    have hdisj : ∀ x ∈ D, x.sequenceNumber ∉ seqsOf E := by
      intro x hx hmemE
      rcases List.mem_map.mp hmemE with ⟨y, hy, hseq⟩
      exact absurd hseq (Nat.ne_of_lt (hcross x hx y hy))
    have heq2 := mergeItemsStore_eq hr (sortedDesc_nodup_seqs hsorted) hdisj
    rw [heq2] at hmerge
    cases hmerge
    exact CacheInv_write hinv (sortedDesc_append hsorted hE hcross)
  · obtain ⟨-, rfl, -⟩ := opResult_inj heq hok
    exact hinv

/-- The public `get` preserves the sortedness invariant. -/
theorem publicGet_inv {api : Api} {c : Cache} {id : Nat}
    (hapi : HonestApi api) (hinv : CacheInv c) :
    ∀ out c2 log, publicGet api c id = .ok (out, c2, log) → CacheInv c2 := by
  intro out c2 log h
  obtain ⟨out1, hs, -, -, -⟩ := publicGet_to_storeGet h
  exact storeGet_inv hapi hinv out1 c2 log hs

theorem publicSet_resolved_inv {api : Api} {c c1 : Cache} {id : Nat}
    {e : HistoryItem} {E : List HistoryItem} {log1 : List FetchCall}
    (hapi : HonestApi api)
    (hg : getFromCacheFirst api c id = (.resolved E, c1, log1))
    (hinv1 : CacheInv c1) (hslot : Cache.read c1 id = some E)
    (hguard : SetEntryGuard api c id e) :
    ∀ out c2 log, publicSet api c id e = .ok (out, c2, log) → CacheInv c2 := by
  intro out c2 log hok
  rw [publicSet_after_resolved hg] at hok
  by_cases h1 : (findWhereSeq E (e.sequenceNumber : Int)).isSome
  · rw [if_pos h1] at hok
    simp only [Except.ok.injEq, Prod.mk.injEq] at hok
    obtain ⟨-, rfl, -⟩ := hok
    exact hinv1
  · rw [if_neg h1] at hok
    by_cases h2 : (findWhereSeq E ((e.sequenceNumber : Int) - 1)).isSome
    · rw [if_pos h2] at hok
      simp only [hslot, Option.getD_some, Except.ok.injEq, Prod.mk.injEq] at hok
      obtain ⟨-, rfl, -⟩ := hok
      have hE : sortedDesc E := by
        have := hinv1 id
        rwa [slotOf, hslot, Option.getD_some] at this
      have hall := hguard E c1 log1 hg h2 (Option.not_isSome_iff_eq_none.mp h1)
      exact CacheInv_write hinv1 (sortedDesc_cons_of hE hall)
    · rw [if_neg h2] at hok
      rcases hs : storeGet api c1 id with e2 | ⟨out1, c3, log3⟩
      · rw [hs] at hok
        simp at hok
      · rw [hs] at hok
        cases out1 with
        | resolved v =>
          simp only [Except.ok.injEq, Prod.mk.injEq] at hok
          obtain ⟨-, rfl, -⟩ := hok
          exact storeGet_inv hapi hinv1 (.resolved v) c3 log3 hs
        | rejected =>
          simp only [Except.ok.injEq, Prod.mk.injEq] at hok
          obtain ⟨-, rfl, -⟩ := hok
          exact storeGet_inv hapi hinv1 .rejected c3 log3 hs
        | pending =>
          simp only [Except.ok.injEq, Prod.mk.injEq] at hok
          obtain ⟨-, rfl, -⟩ := hok
          exact storeGet_inv hapi hinv1 .pending c3 log3 hs

/-- The public `set` preserves the sortedness invariant against an honest
source, given the fast-path guard. -/
theorem publicSet_inv {api : Api} {c : Cache} {id : Nat} {e : HistoryItem}
    (hapi : HonestApi api) (hinv : CacheInv c)
    (hguard : SetEntryGuard api c id e) :
    ∀ out c2 log, publicSet api c id e = .ok (out, c2, log) → CacheInv c2 := by
  rcases getFromCacheFirst_cases api c id with
    ⟨h, hslot, hsucc, heq⟩ | ⟨hslot, hfail, heq⟩ | ⟨E, hr, hne, heq⟩
  · exact publicSet_resolved_inv hapi heq
      (CacheInv_write hinv (hapi id none h hsucc).1)
      (Cache.read_write_self c id h) hguard
  · intro out c2 log hok
    rw [publicSet_after_pending heq] at hok
    simp only [Except.ok.injEq, Prod.mk.injEq] at hok
    obtain ⟨-, rfl, -⟩ := hok
    exact hinv
  · exact publicSet_resolved_inv hapi heq hinv hr hguard

/-- Unfolding of the public `set` when `getFromCacheFirst` is rejected. -/
theorem publicSet_after_rejected {api : Api} {c c1 : Cache} {id : Nat}
    {e : HistoryItem} {log1 : List FetchCall}
    (hg : getFromCacheFirst api c id = (.rejected, c1, log1)) :
    publicSet api c id e = .ok (.pending, c1, log1) := by
  unfold publicSet
  rw [hg]

theorem opTriple_inj {a out : Outcome} {b c1 : Cache} {l log : List FetchCall}
    (h : (a, b, l) = (out, c1, log)) : a = out ∧ b = c1 ∧ l = log := by
  simpa using h

/-- The private `get` never removes anything from any cache slot. -/
theorem storeGet_suffix {api : Api} {c : Cache} {id : Nat} {out : Outcome}
    {c2 : Cache} {log : List FetchCall}
    (h : storeGet api c id = .ok (out, c2, log)) :
    ∀ j, slotOf c j <:+ slotOf c2 j := by
  intro j
  rcases storeGet_cases api c id with
    ⟨hh, hslot, hsucc, heq⟩ | ⟨hslot, hfail, heq⟩ |
    ⟨E, D, c3, hr, hne, hsucc, hmerge, heq⟩ | ⟨E, hr, hne, hfail, heq⟩
  · obtain ⟨-, rfl, -⟩ := opResult_inj heq h
    by_cases hj : id = j
    · subst hj
      rw [slotOf_write_self, hslot]
      exact List.nil_suffix
    · rw [slotOf_write_other c id j hh hj]
  · obtain ⟨-, rfl, -⟩ := opResult_inj heq h
    exact List.suffix_refl _
  · obtain ⟨-, rfl, -⟩ := opResult_inj heq h
    exact mergeItemsStore_suffix hmerge j
  · obtain ⟨-, rfl, -⟩ := opResult_inj heq h
    exact List.suffix_refl _

/-- `getFromCacheFirst` never removes anything from any cache slot. -/
theorem getFromCacheFirst_suffix {api : Api} {c : Cache} {id : Nat}
    {out : Outcome} {c1 : Cache} {log : List FetchCall}
    (h : getFromCacheFirst api c id = (out, c1, log)) :
    ∀ j, slotOf c j <:+ slotOf c1 j := by
  intro j
  rcases getFromCacheFirst_cases api c id with
    ⟨hh, hslot, hsucc, heq⟩ | ⟨hslot, hfail, heq⟩ | ⟨E, hr, hne, heq⟩
  · rw [heq] at h
    obtain ⟨-, rfl, -⟩ := opTriple_inj h
    by_cases hj : id = j
    · subst hj
      rw [slotOf_write_self, hslot]
      exact List.nil_suffix
    · rw [slotOf_write_other c id j hh hj]
  · rw [heq] at h
    obtain ⟨-, rfl, -⟩ := opTriple_inj h
    exact List.suffix_refl _
  · rw [heq] at h
    obtain ⟨-, rfl, -⟩ := opTriple_inj h
    exact List.suffix_refl _

/-- The public `get` never removes anything from any cache slot. -/
theorem publicGet_suffix {api : Api} {c : Cache} {id : Nat} {out : Outcome}
    {c2 : Cache} {log : List FetchCall}
    (h : publicGet api c id = .ok (out, c2, log)) :
    ∀ j, slotOf c j <:+ slotOf c2 j := by
  obtain ⟨out1, hs, -, -, -⟩ := publicGet_to_storeGet h
  exact storeGet_suffix hs

theorem publicSet_resolved_suffix {api : Api} {c c1 : Cache} {id : Nat}
    {e : HistoryItem} {E : List HistoryItem} {log1 : List FetchCall}
    (hg : getFromCacheFirst api c id = (.resolved E, c1, log1)) :
    ∀ out c2 log, publicSet api c id e = .ok (out, c2, log) →
      ∀ j, slotOf c1 j <:+ slotOf c2 j := by
  intro out c2 log hok j
  rw [publicSet_after_resolved hg] at hok
  by_cases h1 : (findWhereSeq E (e.sequenceNumber : Int)).isSome
  · rw [if_pos h1] at hok
    simp only [Except.ok.injEq, Prod.mk.injEq] at hok
    obtain ⟨-, rfl, -⟩ := hok
    exact List.suffix_refl _
  · rw [if_neg h1] at hok
    by_cases h2 : (findWhereSeq E ((e.sequenceNumber : Int) - 1)).isSome
    · rw [if_pos h2] at hok
      simp only [Except.ok.injEq, Prod.mk.injEq] at hok
      obtain ⟨-, rfl, -⟩ := hok
      by_cases hj : id = j
      · subst hj
        rw [slotOf_write_self]
        exact List.suffix_cons e _
      · rw [slotOf_write_other _ _ _ _ hj]
    · rw [if_neg h2] at hok
      rcases hs : storeGet api c1 id with e2 | ⟨out1, c3, log3⟩
      · rw [hs] at hok
        simp at hok
      · rw [hs] at hok
        cases out1 with
        | resolved v =>
          simp only [Except.ok.injEq, Prod.mk.injEq] at hok
          obtain ⟨-, rfl, -⟩ := hok
          exact storeGet_suffix hs j
        | rejected =>
          simp only [Except.ok.injEq, Prod.mk.injEq] at hok
          obtain ⟨-, rfl, -⟩ := hok
          exact storeGet_suffix hs j
        | pending =>
          simp only [Except.ok.injEq, Prod.mk.injEq] at hok
          obtain ⟨-, rfl, -⟩ := hok
          exact storeGet_suffix hs j

/-- The public `set` never removes anything from any cache slot. -/
theorem publicSet_suffix {api : Api} {c : Cache} {id : Nat} {e : HistoryItem}
    {out : Outcome} {c2 : Cache} {log : List FetchCall}
    (h : publicSet api c id e = .ok (out, c2, log)) :
    ∀ j, slotOf c j <:+ slotOf c2 j := by
  intro j
  rcases hg : getFromCacheFirst api c id with ⟨out0, c1, log1⟩
  have hstep := getFromCacheFirst_suffix hg j
  cases out0 with
  | resolved E =>
    exact hstep.trans (publicSet_resolved_suffix hg out c2 log h j)
  | rejected =>
    rw [publicSet_after_rejected hg] at h
    simp only [Except.ok.injEq, Prod.mk.injEq] at h
    obtain ⟨-, rfl, -⟩ := h
    exact hstep
  | pending =>
    rw [publicSet_after_pending hg] at h
    simp only [Except.ok.injEq, Prod.mk.injEq] at h
    obtain ⟨-, rfl, -⟩ := h
    exact hstep

theorem noHidden_filterHiddenActions (l : List HistoryItem) :
    noHidden (filterHiddenActions l) = true := by
  rw [noHidden, List.all_eq_true]
  intro x hx
  exact (List.mem_filter.mp hx).2

/-- Every value the public `get` resolves with has been filtered. -/
theorem publicGet_resolved_noHidden {api : Api} {c : Cache} {id : Nat}
    {v : List HistoryItem} {c2 : Cache} {log : List FetchCall}
    (h : publicGet api c id = .ok (.resolved v, c2, log)) :
    noHidden v = true := by
  obtain ⟨out1, hs, hres, hrej, hpend⟩ := publicGet_to_storeGet h
  cases out1 with
  | resolved w =>
    have hv := hres w rfl
    cases hv
    exact noHidden_filterHiddenActions w
  | rejected => cases hrej rfl
  | pending => cases hpend rfl

/-- Every value the public `set` resolves with has been filtered. -/
theorem publicSet_resolved_noHidden {api : Api} {c : Cache} {id : Nat}
    {e : HistoryItem} {v : List HistoryItem} {c2 : Cache} {log : List FetchCall}
    (h : publicSet api c id e = .ok (.resolved v, c2, log)) :
    noHidden v = true := by
  rcases hg : getFromCacheFirst api c id with ⟨out0, c1, log1⟩
  cases out0 with
  | resolved E =>
    rw [publicSet_after_resolved hg] at h
    by_cases h1 : (findWhereSeq E (e.sequenceNumber : Int)).isSome
    · rw [if_pos h1] at h
      simp only [Except.ok.injEq, Prod.mk.injEq] at h
      obtain ⟨hv, -, -⟩ := h
      cases hv
      exact noHidden_filterHiddenActions E
    · rw [if_neg h1] at h
      by_cases h2 : (findWhereSeq E ((e.sequenceNumber : Int) - 1)).isSome
      · rw [if_pos h2] at h
        simp only [Except.ok.injEq, Prod.mk.injEq] at h
        obtain ⟨hv, -, -⟩ := h
        cases hv
        exact noHidden_filterHiddenActions _
      · rw [if_neg h2] at h
        rcases hs : storeGet api c1 id with e2 | ⟨out1, c3, log3⟩
        · rw [hs] at h
          simp at h
        · rw [hs] at h
          cases out1 with
          | resolved w =>
            simp only [Except.ok.injEq, Prod.mk.injEq] at h
            obtain ⟨hv, -, -⟩ := h
            cases hv
            exact noHidden_filterHiddenActions w
          | rejected => simp at h
          | pending => simp at h
  | rejected =>
    rw [publicSet_after_rejected hg] at h
    simp at h
  | pending =>
    rw [publicSet_after_pending hg] at h
    simp at h

/-- With an existing nonempty cache entry, `getFromCacheFirst` resolves with
it, touching nothing and fetching nothing. -/
theorem getFromCacheFirst_of_read_some {api : Api} {c : Cache} {id : Nat}
    {E : List HistoryItem} (hread : Cache.read c id = some E) (hne : E ≠ []) :
    getFromCacheFirst api c id = (.resolved E, c, []) := by
  have hgd : (Cache.read c id).getD [] = E := by rw [hread]; rfl
  simp only [getFromCacheFirst, hgd]
  rw [if_neg (by simp [List.isEmpty_iff, hne])]

/-- With an existing nonempty cache entry, the private `get` issues exactly
one fetch, whose offset is the newest cached sequence number. -/
theorem storeGet_nonempty_shape {api : Api} {c : Cache} {id : Nat}
    {E : List HistoryItem} (hread : Cache.read c id = some E) (hne : E ≠ []) :
    ∃ out c3, storeGet api c id = .ok (out, c3, [(id, some (headSeq E))]) := by
  rcases storeGet_cases api c id with
    ⟨h, hslot, hsucc, heq⟩ | ⟨hslot, hfail, heq⟩ |
    ⟨E', D, c3, hr, hne', hsucc, hmerge, heq⟩ | ⟨E', hr, hne', hfail, heq⟩
  · rw [slotOf, hread, Option.getD_some] at hslot
    exact absurd hslot hne
  · rw [slotOf, hread, Option.getD_some] at hslot
    exact absurd hslot hne
  · rw [hread] at hr
    cases hr
    exact ⟨_, _, heq⟩
  · rw [hread] at hr
    cases hr
    exact ⟨_, _, heq⟩

theorem callLog_publicGet (api : Api) (c : Cache) (id : Nat) :
    callLog (publicGet api c id) = callLog (storeGet api c id) := by
  rcases hs : storeGet api c id with e | ⟨out1, c3, log3⟩
  · unfold publicGet
    rw [hs]
  · unfold publicGet
    rw [hs]
    cases out1 <;> rfl

/-- C1 (amended): for a cached sequence (newest-first, unique sequence
numbers) and a delta batch that is delivered newest-first and consists of
entries strictly newer than everything cached, `mergeItems` produces the
delta prepended to the cache, newest-first with no duplicate sequence
numbers.  (As frozen, with "for every delivery order", the claim is false:
see the counterexample, where an oldest-first delivery yields an
ascending prefix.) -/
theorem c1_merge_newest_first_delivery (c : Cache) (id : Nat)
    (E D : List HistoryItem)
    (hread : Cache.read c id = some E)
    (hE : sortedDesc E) (hD : sortedDesc D)
    (hgt : ∀ x ∈ D, ∀ y ∈ E, y.sequenceNumber < x.sequenceNumber) :
    mergeItemsStore c id D = .ok (Cache.write c id (D ++ E)) ∧
    sortedDesc (D ++ E) ∧ (seqsOf (D ++ E)).Nodup := by
  have hdisj : ∀ x ∈ D, x.sequenceNumber ∉ seqsOf E := by
    intro x hx hmem
    rcases List.mem_map.mp hmem with ⟨y, hy, hseq⟩
    exact absurd hseq (Nat.ne_of_lt (hgt x hx y hy))
  have hsorted := sortedDesc_append hD hE hgt
  exact ⟨mergeItemsStore_eq hread (sortedDesc_nodup_seqs hD) hdisj, hsorted,
    sortedDesc_nodup_seqs hsorted⟩

/-- C1, counterexample to the frozen claim: the delta with sequence numbers
6, 7, 8 delivered in ascending (oldest-first) order into cache `[5, 4]`
yields `[6, 7, 8, 5, 4]` — not the claimed `[8, 7, 6, 5, 4]`, and not
newest-first. -/
theorem c1_counterexample :
    mergeItemsStore [(1, [mkItem 5, mkItem 4])] 1 [mkItem 6, mkItem 7, mkItem 8] =
      .ok [(1, [mkItem 6, mkItem 7, mkItem 8, mkItem 5, mkItem 4])] ∧
    ¬ sortedDesc [mkItem 6, mkItem 7, mkItem 8, mkItem 5, mkItem 4] ∧
    [(1, [mkItem 6, mkItem 7, mkItem 8, mkItem 5, mkItem 4])] ≠
      ([(1, [mkItem 8, mkItem 7, mkItem 6, mkItem 5, mkItem 4])] : Cache) := by
  refine ⟨by decide, by decide, by decide⟩

/-- C1, witness: the amended theorem applied to cache `[5, 4]` and the
newest-first delta `[8, 7, 6]`. -/
theorem c1_witness :
    Cache.read [(1, [mkItem 5, mkItem 4])] 1 = some [mkItem 5, mkItem 4] ∧
    sortedDesc [mkItem 5, mkItem 4] ∧
    sortedDesc [mkItem 8, mkItem 7, mkItem 6] ∧
    (mergeItemsStore [(1, [mkItem 5, mkItem 4])] 1 [mkItem 8, mkItem 7, mkItem 6] =
       .ok (Cache.write [(1, [mkItem 5, mkItem 4])] 1
         ([mkItem 8, mkItem 7, mkItem 6] ++ [mkItem 5, mkItem 4])) ∧
     sortedDesc ([mkItem 8, mkItem 7, mkItem 6] ++ [mkItem 5, mkItem 4]) ∧
     (seqsOf ([mkItem 8, mkItem 7, mkItem 6] ++ [mkItem 5, mkItem 4])).Nodup) :=
  ⟨by decide, by decide, by decide,
   c1_merge_newest_first_delivery [(1, [mkItem 5, mkItem 4])] 1
     [mkItem 5, mkItem 4] [mkItem 8, mkItem 7, mkItem 6]
     (by decide) (by decide) (by decide) (by decide)⟩

/-- C7 (amended): calling `mergeItems` with a nonempty delta when no cache
exists for the id throws a `TypeError` (`undefined.unshift`) — it does not
produce an empty cache. -/
theorem c7_merge_without_cache_throws (c : Cache) (id : Nat)
    (D : List HistoryItem) (hread : Cache.read c id = none) (hne : D ≠ []) :
    mergeItemsStore c id D = .error unshiftUndefinedError := by
  cases D with
  | nil => exact absurd rfl hne
  | cons d R => exact mergeItemsStore_cons_none hread

/-- C7, counterexample to the frozen claim: with no cache for id 7,
merging the one-entry delta `[3]` throws instead of resulting in an empty
cache. -/
theorem c7_counterexample :
    mergeItemsStore ([] : Cache) 7 [mkItem 3] = .error unshiftUndefinedError ∧
    mergeItemsStore ([] : Cache) 7 [mkItem 3] ≠ .ok ([(7, [])] : Cache) ∧
    mergeItemsStore ([] : Cache) 7 [mkItem 3] ≠ .ok ([] : Cache) := by
  refine ⟨by decide, by decide, by decide⟩

/-- C7, witness: the amended theorem applied to the empty store, id 1,
delta `[6]`. -/
theorem c7_witness :
    Cache.read ([] : Cache) 1 = none ∧
    ([mkItem 6] : List HistoryItem) ≠ [] ∧
    mergeItemsStore ([] : Cache) 1 [mkItem 6] = .error unshiftUndefinedError :=
  ⟨by decide, by decide,
   c7_merge_without_cache_throws [] 1 [mkItem 6] (by decide) (by decide)⟩

/-- C10: a nonempty delta passed to `mergeItems` is reversed in place, so
after the call the caller observes its own array in the opposite order. -/
theorem c10_delta_reversed_in_place (c : Cache) (id : Nat)
    (D : List HistoryItem) (hne : D ≠ []) :
    (mergeItemsFull c id D).2 = D.reverse := by
  have hlen : ¬ D.length = 0 := by simpa using hne
  unfold mergeItemsFull
  rw [if_neg hlen]
  split <;> rfl

/-- C10, witness: merging the delta `[6, 7]` leaves the caller's array as
`[7, 6]`. -/
theorem c10_witness :
    ([mkItem 6, mkItem 7] : List HistoryItem) ≠ [] ∧
    (mergeItemsFull [(1, [mkItem 5])] 1 [mkItem 6, mkItem 7]).2 =
      [mkItem 7, mkItem 6] :=
  ⟨by decide,
   (c10_delta_reversed_in_place [(1, [mkItem 5])] 1 [mkItem 6, mkItem 7]
     (by decide)).trans (by decide)⟩

/-- C2: for an id with a nonempty sorted cache, the public `get` issues
exactly one fetch whose offset is the newest cached sequence number (an
upper bound of every cached sequence number); the gap-reconciliation path of
the public `set` (entry and predecessor both missing) issues exactly the
same single fetch. -/
theorem c2_offset_is_newest (api : Api) (c : Cache) (id : Nat)
    (E : List HistoryItem) (e : HistoryItem)
    (hread : Cache.read c id = some E) (hne : E ≠ [])
    (hsorted : sortedDesc E)
    (hseq : findWhereSeq E (e.sequenceNumber : Int) = none)
    (hpred : findWhereSeq E ((e.sequenceNumber : Int) - 1) = none) :
    (∀ x ∈ E, x.sequenceNumber ≤ headSeq E) ∧
    callLog (publicGet api c id) = [(id, some (headSeq E))] ∧
    callLog (publicSet api c id e) = [(id, some (headSeq E))] := by
  obtain ⟨out3, c3, hs⟩ := storeGet_nonempty_shape hread hne
  refine ⟨sortedDesc_le_headSeq hsorted, ?_, ?_⟩
  · rw [callLog_publicGet, hs]
    rfl
  · rw [publicSet_after_resolved (getFromCacheFirst_of_read_some hread hne)]
    rw [if_neg (by simp [hseq]), if_neg (by simp [hpred])]
    rw [hs]
    cases out3 <;> rfl

/-- C2, witness: cache `[5, 4]` and entry 8 — both the `get` fetch and the
`set` gap fetch pass offset 5. -/
theorem c2_witness :
    Cache.read [(1, [mkItem 5, mkItem 4])] 1 = some [mkItem 5, mkItem 4] ∧
    ([mkItem 5, mkItem 4] : List HistoryItem) ≠ [] ∧
    sortedDesc [mkItem 5, mkItem 4] ∧
    findWhereSeq [mkItem 5, mkItem 4] ((mkItem 8).sequenceNumber : Int) = none ∧
    findWhereSeq [mkItem 5, mkItem 4] (((mkItem 8).sequenceNumber : Int) - 1) = none ∧
    callLog (publicGet emptyApi [(1, [mkItem 5, mkItem 4])] 1) = [(1, some 5)] ∧
    callLog (publicSet emptyApi [(1, [mkItem 5, mkItem 4])] 1 (mkItem 8)) =
      [(1, some 5)] :=
  ⟨by decide, by decide, by decide, by decide, by decide,
   (c2_offset_is_newest emptyApi [(1, [mkItem 5, mkItem 4])] 1
     [mkItem 5, mkItem 4] (mkItem 8) (by decide) (by decide) (by decide)
     (by decide) (by decide)).2.1,
   (c2_offset_is_newest emptyApi [(1, [mkItem 5, mkItem 4])] 1
     [mkItem 5, mkItem 4] (mkItem 8) (by decide) (by decide) (by decide)
     (by decide) (by decide)).2.2⟩

/-- C3: when the cache for an id holds the entry's immediate predecessor but
not the entry itself, `set` performs no fetch (for any source), prepends the
entry to the cached sequence, and resolves with the filtered result. -/
theorem c3_fast_path_no_fetch (api : Api) (c : Cache) (id : Nat)
    (E : List HistoryItem) (e : HistoryItem)
    (hread : Cache.read c id = some E)
    (hseq : findWhereSeq E (e.sequenceNumber : Int) = none)
    (hpred : (findWhereSeq E ((e.sequenceNumber : Int) - 1)).isSome = true) :
    publicSet api c id e =
      .ok (.resolved (filterHiddenActions (e :: E)),
        Cache.write c id (e :: E), []) := by
  have hne : E ≠ [] := by
    intro hnil
    subst hnil
    simp [findWhereSeq] at hpred
  rw [publicSet_after_resolved (getFromCacheFirst_of_read_some hread hne)]
  rw [if_neg (by simp [hseq]), if_pos hpred, hread]
  rfl

/-- C3, witness: cache `[5, 4]`, entry 6, against a source whose every call
would fail — the fast path never consults it. -/
theorem c3_witness :
    Cache.read [(1, [mkItem 5, mkItem 4])] 1 = some [mkItem 5, mkItem 4] ∧
    findWhereSeq [mkItem 5, mkItem 4] ((mkItem 6).sequenceNumber : Int) = none ∧
    (findWhereSeq [mkItem 5, mkItem 4]
      (((mkItem 6).sequenceNumber : Int) - 1)).isSome = true ∧
    publicSet failApi [(1, [mkItem 5, mkItem 4])] 1 (mkItem 6) =
      .ok (.resolved (filterHiddenActions (mkItem 6 :: [mkItem 5, mkItem 4])),
        Cache.write [(1, [mkItem 5, mkItem 4])] 1
          (mkItem 6 :: [mkItem 5, mkItem 4]), []) :=
  ⟨by decide, by decide, by decide,
   c3_fast_path_no_fetch failApi [(1, [mkItem 5, mkItem 4])] 1
     [mkItem 5, mkItem 4] (mkItem 6) (by decide) (by decide) (by decide)⟩

/-- C6: for an id with no cache, the public `get` performs exactly one fetch
with the offset omitted, installs the fetched sequence verbatim as the cache
for the id, and resolves with that sequence filtered. -/
theorem c6_bootstrap_full_fetch (api : Api) (c : Cache) (id : Nat)
    (h : List HistoryItem)
    (hread : Cache.read c id = none)
    (hapi : api id none = .success h) :
    publicGet api c id =
      .ok (.resolved (filterHiddenActions h), Cache.write c id h,
        [(id, none)]) := by
  have hgd : (Cache.read c id).getD [] = ([] : List HistoryItem) := by
    rw [hread]; rfl
  have hs : storeGet api c id =
      .ok (.resolved h, Cache.write c id h, [(id, none)]) := by
    simp [storeGet, hgd, fetchAll, hapi]
  unfold publicGet
  rw [hs]

/-- C6, witness: a fresh id against a source returning `[2, 1]`. -/
theorem c6_witness :
    Cache.read ([] : Cache) 1 = none ∧
    oneReportApi 1 none = .success [mkItem 2, mkItem 1] ∧
    publicGet oneReportApi [] 1 =
      .ok (.resolved (filterHiddenActions [mkItem 2, mkItem 1]),
        Cache.write [] 1 [mkItem 2, mkItem 1], [(1, none)]) :=
  ⟨by decide, by decide,
   c6_bootstrap_full_fetch oneReportApi [] 1 [mkItem 2, mkItem 1]
     (by decide) (by decide)⟩

/-- C4 (amended): when the entry's sequence number is already cached, or its
immediate predecessor is cached and the entry is not (the paths on which the
first `set` leaves the entry's sequence number in the cache), calling `set`
twice yields the same filtered result both times, neither call fetches, the
second call does not mutate the cache, and afterwards the cache holds the
entry's sequence number exactly once.  (As frozen — for every entry — the
claim is false: see the counterexample, where a gap entry the source does
not return leaves the cache without the entry and the second call fetches
again.) -/
theorem c4_set_idempotent (api : Api) (c : Cache) (id : Nat)
    (E : List HistoryItem) (e : HistoryItem)
    (hread : Cache.read c id = some E)
    (hnd : (seqsOf E).Nodup)
    (hcase : (findWhereSeq E (e.sequenceNumber : Int)).isSome = true ∨
             (findWhereSeq E ((e.sequenceNumber : Int) - 1)).isSome = true) :
    publicSet api c id e =
      .ok (.resolved (filterHiddenActions
          (if (findWhereSeq E (e.sequenceNumber : Int)).isSome then E
           else e :: E)),
        (if (findWhereSeq E (e.sequenceNumber : Int)).isSome then c
         else Cache.write c id (e :: E)), []) ∧
    publicSet api
        (if (findWhereSeq E (e.sequenceNumber : Int)).isSome then c
         else Cache.write c id (e :: E)) id e =
      .ok (.resolved (filterHiddenActions
          (if (findWhereSeq E (e.sequenceNumber : Int)).isSome then E
           else e :: E)),
        (if (findWhereSeq E (e.sequenceNumber : Int)).isSome then c
         else Cache.write c id (e :: E)), []) ∧
    (seqsOf (slotOf
        (if (findWhereSeq E (e.sequenceNumber : Int)).isSome then c
         else Cache.write c id (e :: E)) id)).count e.sequenceNumber = 1 := by
  by_cases h1 : (findWhereSeq E (e.sequenceNumber : Int)).isSome = true
  · have hne : E ≠ [] := by
      intro hnil
      subst hnil
      simp [findWhereSeq] at h1
    have hfirst : publicSet api c id e =
        .ok (.resolved (filterHiddenActions E), c, []) := by
      rw [publicSet_after_resolved
        (getFromCacheFirst_of_read_some hread hne), if_pos h1]
    simp only [if_pos h1]
    refine ⟨hfirst, hfirst, ?_⟩
    have hslot : slotOf c id = E := by simp [slotOf, hread]
    rw [hslot]
    exact List.count_eq_one_of_mem hnd (findWhereSeq_mem_nat.mp h1)
  · rcases hcase with hc | h2
    · exact absurd hc h1
    · have hne : E ≠ [] := by
        intro hnil
        subst hnil
        simp [findWhereSeq] at h2
      have hfirst : publicSet api c id e =
          .ok (.resolved (filterHiddenActions (e :: E)),
            Cache.write c id (e :: E), []) := by
        rw [publicSet_after_resolved
          (getFromCacheFirst_of_read_some hread hne), if_neg h1, if_pos h2,
          hread]
        rfl
      have hpos2 : (findWhereSeq (e :: E)
          (e.sequenceNumber : Int)).isSome = true := by
        simp [findWhereSeq]
      have hsecond : publicSet api (Cache.write c id (e :: E)) id e =
          .ok (.resolved (filterHiddenActions (e :: E)),
            Cache.write c id (e :: E), []) := by
        rw [publicSet_after_resolved
          (getFromCacheFirst_of_read_some
            (Cache.read_write_self c id (e :: E)) (by simp)), if_pos hpos2]
      simp only [if_neg h1]
      refine ⟨hfirst, hsecond, ?_⟩
      rw [slotOf_write_self]
      have hnotmem : e.sequenceNumber ∉ seqsOf E :=
        fun hm => h1 (findWhereSeq_mem_nat.mpr hm)
      have hcons : seqsOf (e :: E) = e.sequenceNumber :: seqsOf E := by
        simp [seqsOf]
      rw [hcons, List.count_cons_self, List.count_eq_zero.mpr hnotmem]

/-- C4, counterexample to the frozen claim: cache `[5, 4]`, entry 8, source
returning no newer entries — both `set` calls resolve with the same filtered
`[5, 4]`, but the second call does fetch (offset 5) and afterwards the cache
holds no entry with sequence number 8 (rather than exactly one). -/
theorem c4_counterexample :
    publicSet emptyApi [(1, [mkItem 5, mkItem 4])] 1 (mkItem 8) =
      .ok (.resolved (filterHiddenActions [mkItem 5, mkItem 4]),
        [(1, [mkItem 5, mkItem 4])], [(1, some 5)]) ∧
    ([(1, some 5)] : List FetchCall) ≠ [] ∧
    (seqsOf (slotOf [(1, [mkItem 5, mkItem 4])] 1)).count
      (mkItem 8).sequenceNumber = 0 := by
  refine ⟨by decide, by decide, by decide⟩

/-- C4, witness: cache `[5, 4]` and entry 6 (fast path), discharged against
a source returning empty histories. -/
theorem c4_witness :
    Cache.read [(1, [mkItem 5, mkItem 4])] 1 = some [mkItem 5, mkItem 4] ∧
    (seqsOf [mkItem 5, mkItem 4]).Nodup ∧
    ((findWhereSeq [mkItem 5, mkItem 4]
        (((mkItem 6).sequenceNumber : Int) - 1)).isSome = true) ∧
    publicSet emptyApi [(1, [mkItem 5, mkItem 4])] 1 (mkItem 6) =
      .ok (.resolved (filterHiddenActions
          (if (findWhereSeq [mkItem 5, mkItem 4]
                ((mkItem 6).sequenceNumber : Int)).isSome
           then [mkItem 5, mkItem 4]
           else mkItem 6 :: [mkItem 5, mkItem 4])),
        (if (findWhereSeq [mkItem 5, mkItem 4]
              ((mkItem 6).sequenceNumber : Int)).isSome
         then [(1, [mkItem 5, mkItem 4])]
         else Cache.write [(1, [mkItem 5, mkItem 4])] 1
           (mkItem 6 :: [mkItem 5, mkItem 4])), []) :=
  ⟨by decide, by decide, by decide,
   (c4_set_idempotent emptyApi [(1, [mkItem 5, mkItem 4])] 1
     [mkItem 5, mkItem 4] (mkItem 6) (by decide) (by decide)
     (Or.inr (by decide))).1⟩

/-- C5: every value `get` or `set` resolves with is free of hidden actions
(hidden-category names and the `CC` reserved prefix), while every entry
already in any cache slot is still there (a suffix of the slot) afterwards —
filtering is presentation-only. -/
theorem c5_hidden_filtered_but_retained (api : Api) (c : Cache) (id j : Nat)
    (e : HistoryItem) (outG outS : Outcome) (cG cS : Cache)
    (logG logS : List FetchCall) (vG vS : List HistoryItem) :
    (publicGet api c id = .ok (outG, cG, logG) →
      (outG = .resolved vG → noHidden vG = true) ∧
      (slotOf c j).isSuffixOf (slotOf cG j) = true) ∧
    (publicSet api c id e = .ok (outS, cS, logS) →
      (outS = .resolved vS → noHidden vS = true) ∧
      (slotOf c j).isSuffixOf (slotOf cS j) = true) := by
  constructor
  · intro h
    refine ⟨?_, ?_⟩
    · intro hout
      subst hout
      exact publicGet_resolved_noHidden h
    · rw [List.isSuffixOf_iff_suffix]
      exact publicGet_suffix h j
  · intro h
    refine ⟨?_, ?_⟩
    · intro hout
      subst hout
      exact publicSet_resolved_noHidden h
    · rw [List.isSuffixOf_iff_suffix]
      exact publicSet_suffix h j

/-- C5, witness: a cache whose slot holds a `CCFOO` entry and a
`BILLABLEDELEGATE` entry — both `get` and the gap path of `set` resolve with
only the visible entry `[4]`, and the full slot (hidden entries included)
survives both calls. -/
theorem c5_witness :
    ((noHidden [mkItem 4] = true) ∧
      (slotOf [(1, [ccItem 6, billableItem 5, mkItem 4])] 1).isSuffixOf
        (slotOf [(1, [ccItem 6, billableItem 5, mkItem 4])] 1) = true) ∧
    ((noHidden [mkItem 4] = true) ∧
      (slotOf [(1, [ccItem 6, billableItem 5, mkItem 4])] 1).isSuffixOf
        (slotOf [(1, [ccItem 6, billableItem 5, mkItem 4])] 1) = true) := by
  have h := c5_hidden_filtered_but_retained emptyApi
    [(1, [ccItem 6, billableItem 5, mkItem 4])] 1 1 (mkItem 9)
    (.resolved [mkItem 4]) (.resolved [mkItem 4])
    [(1, [ccItem 6, billableItem 5, mkItem 4])]
    [(1, [ccItem 6, billableItem 5, mkItem 4])]
    [(1, some 6)] [(1, some 6)] [mkItem 4] [mkItem 4]
  exact ⟨⟨(h.1 (by decide)).1 rfl, (h.1 (by decide)).2⟩,
    ⟨(h.2 (by decide)).1 rfl, (h.2 (by decide)).2⟩⟩

/-- C8 (amended): when every fetch for an id fails, the public `get` leaves
the caller's deferred pending (never resolved, never rejected — the failure
is not propagated as a failed result) with the cache unchanged; and whenever
the public `set` issued any fetch, its deferred is likewise pending with the
cache unchanged.  (As frozen — "resolve as a failed result" — the claim is
false: see the counterexample, the deferred stays pending.) -/
theorem c8_failure_pending_cache_unchanged (api : Api) (c : Cache) (id : Nat)
    (e : HistoryItem) (hfail : ∀ off, api id off = .failure) :
    publicGet api c id = .ok (.pending, c, callLog (publicGet api c id)) ∧
    (callLog (publicSet api c id e) ≠ [] →
      publicSet api c id e =
        .ok (.pending, c, callLog (publicSet api c id e))) := by
  constructor
  · rcases storeGet_cases api c id with
      ⟨h, hslot, hsucc, heq⟩ | ⟨hslot, hf, heq⟩ |
      ⟨E, D, c3, hr, hne, hsucc, hmerge, heq⟩ | ⟨E, hr, hne, hf, heq⟩
    · rw [hfail none] at hsucc
      cases hsucc
    · have hpg : publicGet api c id = .ok (.pending, c, [(id, none)]) := by
        unfold publicGet
        rw [heq]
      rw [hpg]
      rfl
    · rw [hfail (some (headSeq E))] at hsucc
      cases hsucc
    · have hpg : publicGet api c id =
          .ok (.pending, c, [(id, some (headSeq E))]) := by
        unfold publicGet
        rw [heq]
      rw [hpg]
      rfl
  · intro hlog
    rcases getFromCacheFirst_cases api c id with
      ⟨h, hslot, hsucc, heq⟩ | ⟨hslot, hf, heq⟩ | ⟨E, hr, hne, heq⟩
    · rw [hfail none] at hsucc
      cases hsucc
    · rw [publicSet_after_pending heq]
      rfl
    · rw [publicSet_after_resolved heq] at hlog ⊢
      by_cases h1 : (findWhereSeq E (e.sequenceNumber : Int)).isSome = true
      · rw [if_pos h1] at hlog
        exact absurd rfl hlog
      · rw [if_neg h1] at hlog ⊢
        by_cases h2 : (findWhereSeq E
            ((e.sequenceNumber : Int) - 1)).isSome = true
        · rw [if_pos h2] at hlog
          exact absurd rfl hlog
        · rw [if_neg h2] at hlog ⊢
          rcases storeGet_cases api c id with
            ⟨h3, hslot3, hsucc3, heq3⟩ | ⟨hslot3, hf3, heq3⟩ |
            ⟨E3, D3, c33, hr3, hne3, hsucc3, hmerge3, heq3⟩ |
            ⟨E3, hr3, hne3, hf3, heq3⟩
          · rw [slotOf, hr, Option.getD_some] at hslot3
            exact absurd hslot3 hne
          · rw [slotOf, hr, Option.getD_some] at hslot3
            exact absurd hslot3 hne
          · rw [hfail (some (headSeq E3))] at hsucc3
            cases hsucc3
          · rw [heq3]
            rfl

/-- C8, counterexample to the frozen claim: with an always-failing source
and no cache, `get` leaves the promise pending — not rejected (no failed
result ever reaches the caller) — though the cache is indeed untouched. -/
theorem c8_counterexample :
    publicGet failApi ([] : Cache) 1 = .ok (.pending, [], [(1, none)]) ∧
    Outcome.pending ≠ Outcome.rejected := by
  refine ⟨by decide, by decide⟩

/-- C8, witness: cache `[5, 4]` against an always-failing source — both
`get` and the gap path of `set` stay pending and leave the cache intact. -/
theorem c8_witness :
    publicGet failApi [(1, [mkItem 5, mkItem 4])] 1 =
      .ok (.pending, [(1, [mkItem 5, mkItem 4])],
        callLog (publicGet failApi [(1, [mkItem 5, mkItem 4])] 1)) ∧
    publicSet failApi [(1, [mkItem 5, mkItem 4])] 1 (mkItem 8) =
      .ok (.pending, [(1, [mkItem 5, mkItem 4])],
        callLog (publicSet failApi [(1, [mkItem 5, mkItem 4])] 1 (mkItem 8))) :=
  ⟨(c8_failure_pending_cache_unchanged failApi [(1, [mkItem 5, mkItem 4])] 1
      (mkItem 8) (fun _ => rfl)).1,
   (c8_failure_pending_cache_unchanged failApi [(1, [mkItem 5, mkItem 4])] 1
      (mkItem 8) (fun _ => rfl)).2 (by decide)⟩

theorem honestApi_emptyApi : HonestApi emptyApi := by
  intro i off h heq
  have h2 : ApiResult.success ([] : List HistoryItem) = .success h := heq
  cases h2
  exact ⟨List.chain'_nil, by simp⟩

theorem honestApi_gapLogApi : HonestApi gapLogApi := by
  intro i off h heq
  cases off with
  | none =>
    have h2 : ApiResult.success [mkItem 7, mkItem 5] = .success h := heq
    cases h2
    refine ⟨by decide, ?_⟩
    intro x hx k hk
    cases hk
  | some k =>
    have h2 : ApiResult.success
        (List.filter (fun x => decide (k < x.sequenceNumber))
          [mkItem 7, mkItem 5]) = .success h := heq
    cases h2
    constructor
    · rw [sortedDesc_iff_pairwise]
      exact List.Pairwise.sublist (List.filter_sublist _)
        (sortedDesc_iff_pairwise.mp (by decide : sortedDesc [mkItem 7, mkItem 5]))
    · intro x hx k2 hk2
      cases hk2
      have hmem := List.mem_filter.mp hx
      simpa using hmem.2

theorem CacheInv_single (id : Nat) (l : List HistoryItem)
    (h : sortedDesc l) : CacheInv [(id, l)] := by
  intro j
  by_cases hj : id = j
  · subst hj
    have hs : slotOf [(id, l)] id = l := by simp [slotOf, Cache.read]
    rw [hs]
    exact h
  · have hs : slotOf [(id, l)] j = [] := by simp [slotOf, Cache.read, hj]
    rw [hs]
    exact List.chain'_nil

/-- C9 (amended): against a source whose responses are newest-first and
respect the offset, both public operations preserve the cache invariant
(newest-first, duplicate-free slots), provided additionally that whenever
`set` finds the entry's predecessor cached without the entry itself, every
cached entry is older than the entry being set.  (As frozen the claim is
false: see the counterexample — with a gap in the cached window, the `set`
fast path prepends out of order without consulting the source at all.) -/
theorem c9_operations_preserve_invariant (api : Api) (c : Cache) (id : Nat)
    (e : HistoryItem) (hapi : HonestApi api) (hinv : CacheInv c)
    (hguard : SetEntryGuard api c id e) :
    CacheInv (cacheOf (publicGet api c id) c) ∧
    CacheInv (cacheOf (publicSet api c id e) c) := by
  constructor
  · rcases hr : publicGet api c id with er | ⟨out, c2, log⟩
    · exact hinv
    · exact publicGet_inv hapi hinv out c2 log hr
  · rcases hr : publicSet api c id e with er | ⟨out, c2, log⟩
    · exact hinv
    · exact publicSet_inv hapi hinv hguard out c2 log hr

/-- C9, counterexample to the frozen claim: the source is exact over the
authoritative log `[7, 5]` (which has a gap at 6) and the cache `[7, 5]`
satisfies the invariant, yet `set` of entry 6 takes the fast path (its
predecessor 5 is cached) and produces the unsorted slot `[6, 7, 5]`. -/
theorem c9_counterexample :
    HonestApi gapLogApi ∧
    CacheInv [(1, [mkItem 7, mkItem 5])] ∧
    publicSet gapLogApi [(1, [mkItem 7, mkItem 5])] 1 (mkItem 6) =
      .ok (.resolved (filterHiddenActions [mkItem 6, mkItem 7, mkItem 5]),
        [(1, [mkItem 6, mkItem 7, mkItem 5])], []) ∧
    ¬ CacheInv [(1, [mkItem 6, mkItem 7, mkItem 5])] := by
  refine ⟨honestApi_gapLogApi, CacheInv_single 1 _ (by decide), by decide, ?_⟩
  intro hinv
  exact absurd (hinv 1) (by decide)

/-- C9, witness: cache `[3]` for id 5 and entry 4 (fast path, guard holds)
against the empty-history source. -/
theorem c9_witness :
    CacheInv (cacheOf (publicGet emptyApi [(5, [mkItem 3])] 5)
      [(5, [mkItem 3])]) ∧
    CacheInv (cacheOf (publicSet emptyApi [(5, [mkItem 3])] 5 (mkItem 4))
      [(5, [mkItem 3])]) :=
  c9_operations_preserve_invariant emptyApi [(5, [mkItem 3])] 5 (mkItem 4)
    honestApi_emptyApi
    (CacheInv_single 5 [mkItem 3] (by decide))
    (by
      intro E c1 log1 hg hsome hnone x hx
      have heq := (@getFromCacheFirst_of_read_some emptyApi [(5, [mkItem 3])]
        5 [mkItem 3]
        (show Cache.read [(5, [mkItem 3])] 5 = some [mkItem 3] by decide)
        (by decide)).symm.trans hg
      obtain ⟨hE, -, -⟩ := opTriple_inj heq
      cases hE
      rcases List.mem_singleton.mp hx with rfl
      decide)

end RHS
